import Mathlib

set_option maxHeartbeats 1000000
set_option maxRecDepth 4000

/-!
Shallow embedding of the rlox-vm core (src/chunk.rs, src/vm.rs).

Conventions of the embedding:
* Machine bytes (`u8`) are `Nat`s; where overflow matters it is written
  explicitly as `% 256` (release-mode wrapping semantics of `u8` addition).
* `Value` (src/value.rs is not part of the provided sources; the spec says it
  is a double-precision number) is modelled parametrically as a type `V`
  equipped with total arithmetic operations, since IEEE-754 arithmetic is not
  shallowly embeddable; none of the verified properties depend on the
  numeric behaviour of the operations themselves.
* Fallible operations that return `ChunkResult`/`InterpretResult` in the
  source return `Except`; operations whose Rust counterpart can panic on an
  out-of-bounds `Vec` index, or hit undefined behaviour through a raw
  pointer, return `Option` with `none` standing for the panic/UB case.
* The VM's fixed 256-slot stack plus `stack_top` pointer is represented by
  the list of live slots, top of stack at the head; pushes beyond capacity
  256 and pops/arithmetic on too few slots map to `none` (UB in the source).
-/

namespace RloxVm

/-- Errors raised while building or decoding a chunk (chunk.rs `ChunkError`). -/
inductive ChunkError where
  | ParseOpCode (byte : Nat)
  | TooManyConstantsShort
  | TooManyConstantsLong
  | ParseLineForOffset (offset : Nat)
  deriving Repr, DecidableEq

/-- The instruction set (chunk.rs `OpCode`), `repr(u8)` with discriminants 0..7. -/
inductive OpCode where
  | Constant
  | ConstantLong
  | Add
  | Subtract
  | Multiply
  | Divide
  | Negate
  | Return
  deriving Repr, DecidableEq

/-- The `repr(u8)` discriminant of an opcode (the Rust `op as u8` cast). -/
def OpCode.as_u8 : OpCode → Nat
  | .Constant => 0
  | .ConstantLong => 1
  | .Add => 2
  | .Subtract => 3
  | .Multiply => 4
  | .Divide => 5
  | .Negate => 6
  | .Return => 7

/-- Decode a byte into an opcode (chunk.rs `OpCode::from_u8`). -/
def OpCode.from_u8 : Nat → Option OpCode
  | 0 => some .Constant
  | 1 => some .ConstantLong
  | 2 => some .Add
  | 3 => some .Subtract
  | 4 => some .Multiply
  | 5 => some .Divide
  | 6 => some .Negate
  | 7 => some .Return
  | _ => none

/-- One run of the run-length-encoded line map (chunk.rs `Rle<T>`); `num` is a
`u8` in the source. -/
structure Rle (T : Type) where
  num : Nat
  value : T
  deriving Repr, DecidableEq

/-- A fresh run of length one (chunk.rs `Rle::new`). -/
def Rle.new {T : Type} (value : T) : Rle T := ⟨1, value⟩

/-- Increment a run's count; `num` is a `u8`, so the addition wraps at 256
(chunk.rs `Rle::increment`, release-mode semantics of `self.num += 1`;
a debug build would panic at the same point the wrap occurs). -/
def Rle.increment {T : Type} (r : Rle T) : Rle T := ⟨(r.num + 1) % 256, r.value⟩

/-- The bytecode container (chunk.rs `Chunk`): code buffer, RLE line map,
constant pool. -/
structure Chunk (V : Type) where
  code : List Nat
  lines : List (Rle Nat)
  constants : List V
  deriving Repr, DecidableEq

/-- The empty chunk (chunk.rs `Chunk::new` / `Default`). -/
def Chunk.new {V : Type} : Chunk V := ⟨[], [], []⟩

/-- Append one raw byte together with its source line (chunk.rs
`Chunk::write_byte`): extend the last line run if it carries the same line,
otherwise start a new run of length one. -/
def Chunk.write_byte {V : Type} (ch : Chunk V) (byte : Nat) (line : Nat) : Chunk V :=
  { ch with
    code := ch.code ++ [byte],
    lines :=
      match ch.lines.getLast? with
      | some last => if last.value = line
          then ch.lines.dropLast ++ [last.increment]
          else ch.lines ++ [Rle.new line]
      | none => ch.lines ++ [Rle.new line] }

/-- Append a value to the constant pool and return its index (chunk.rs
`Chunk::add_constant`). -/
def Chunk.add_constant {V : Type} (ch : Chunk V) (value : V) : Chunk V × Nat :=
  ({ ch with constants := ch.constants ++ [value] }, ch.constants.length)

/-- Emit a `Constant` instruction with a 1-byte operand (chunk.rs
`Chunk::write_constant_short`). The opcode byte is written before the
`try_into::<u8>` bound check, exactly as in the source; the mutated chunk is
returned alongside the result, mirroring `&mut self`. -/
def Chunk.write_constant_short {V : Type} (ch : Chunk V) (value : V) (line : Nat) :
    Chunk V × Except ChunkError Unit :=
  let p := ch.add_constant value
  let ch1 := p.1.write_byte OpCode.Constant.as_u8 line
  if p.2 ≤ 255 then
    (ch1.write_byte p.2 line, .ok ())
  else
    (ch1, .error .TooManyConstantsShort)

/-- Emit a `ConstantLong` instruction with a 2-byte little-endian operand
(chunk.rs `Chunk::write_constant_long`). The opcode byte is written before
the `try_into::<u16>` bound check, exactly as in the source. -/
def Chunk.write_constant_long {V : Type} (ch : Chunk V) (value : V) (line : Nat) :
    Chunk V × Except ChunkError Unit :=
  let p := ch.add_constant value
  let ch1 := p.1.write_byte OpCode.ConstantLong.as_u8 line
  if p.2 ≤ 65535 then
    (((ch1.write_byte (p.2 % 256) line).write_byte (p.2 / 256) line), .ok ())
  else
    (ch1, .error .TooManyConstantsLong)

/-- Choose the constant-instruction width from the current pool size
(chunk.rs `Chunk::write_constant`). -/
def Chunk.write_constant {V : Type} (ch : Chunk V) (value : V) (line : Nat) :
    Chunk V × Except ChunkError Unit :=
  if ch.constants.length < 255 then
    ch.write_constant_short value line
  else
    ch.write_constant_long value line

/-- The scanning loop of chunk.rs `Chunk::get_line`: walk the runs,
accumulating the start offset of each. -/
def getLineGo (offset : Nat) : List (Rle Nat) → Nat → Except ChunkError Nat
  | [], _ => .error (.ParseLineForOffset offset)
  | r :: rest, start =>
    if start ≤ offset ∧ offset < start + r.num then .ok r.value
    else getLineGo offset rest (start + r.num)

/-- Source line for a byte offset (chunk.rs `Chunk::get_line`). -/
def Chunk.get_line {V : Type} (ch : Chunk V) (offset : Nat) : Except ChunkError Nat :=
  getLineGo offset ch.lines 0

/-- Little-endian decoding of two bytes, as `u16::from_le_bytes([b1, b2])`
does in `Vm::read_constant_long` and `Chunk::constant_long_instruction`. -/
def u16le (lo hi : Nat) : Nat := lo + 256 * hi

/-- Operand width (in bytes) declared for each opcode by the disassembler and
the VM dispatch loop. -/
def opWidth : OpCode → Nat
  | .Constant => 1
  | .ConstantLong => 2
  | _ => 0

/-- Disassemble the single instruction at `offset` (chunk.rs
`Chunk::disassemble_instruction`), with the printing dropped and only the
control flow kept: the returned `Except` mirrors the source's `ChunkResult`,
while `none` models the panics of the unchecked `Vec` indexing in
`self.code[offset]`, `constant_instruction` and `constant_long_instruction`. -/
def Chunk.disassemble_instruction {V : Type} (ch : Chunk V) (offset : Nat) :
    Option (Except ChunkError Nat) :=
  match ch.get_line offset with
  | .error e => some (.error e)
  | .ok line =>
    match (if 0 < offset then ch.get_line (offset - 1) else .ok line) with
    | .error e => some (.error e)
    | .ok _ =>
      match ch.code[offset]? with
      | none => none
      | some byte =>
        match OpCode.from_u8 byte with
        | none => some (.error (.ParseOpCode byte))
        | some .Constant =>
          match ch.code[offset + 1]? with
          | none => none
          | some idx =>
            match ch.constants[idx]? with
            | none => none
            | some _ => some (.ok (offset + 2))
        | some .ConstantLong =>
          match ch.code[offset + 1]?, ch.code[offset + 2]? with
          | some b1, some b2 =>
            match ch.constants[u16le b1 b2]? with
            | none => none
            | some _ => some (.ok (offset + 3))
          | _, _ => none
        | some _ => some (.ok (offset + 1))

/-- Build a chunk by a sequence of `write_byte` calls: each entry is a
(byte, line) pair. -/
def writeBytes {V : Type} (ch : Chunk V) (entries : List (Nat × Nat)) : Chunk V :=
  entries.foldl (fun c p => c.write_byte p.1 p.2) ch

/-- Interpreter errors (vm.rs `InterpretError`). -/
inductive InterpretError where
  | Compilation (msg : String)
  | Runtime (msg : String)
  deriving Repr, DecidableEq

/-- The virtual machine state (vm.rs `Vm`): owned chunk, instruction pointer
as an offset into `code`, and the live stack slots (top at the head). -/
structure Vm (V : Type) where
  chunk : Chunk V
  ip : Nat
  stack : List V
  deriving Repr, DecidableEq

/-- Construct a VM over a chunk (vm.rs `Vm::new`). The source initializes
`ip` from `addr_of!(vm.chunk.code[0])`, a checked `Vec` index that panics on
an empty code buffer; that panic is `none` here. -/
def Vm.new {V : Type} (ch : Chunk V) : Option (Vm V) :=
  match ch.code with
  | [] => none
  | _ :: _ => some ⟨ch, 0, []⟩

/-- Fetch the byte at `ip` and advance (vm.rs `Vm::read_byte`); reading past
the end of the code buffer is UB through the raw pointer, `none` here. -/
def Vm.read_byte {V : Type} (vm : Vm V) : Option (Nat × Vm V) :=
  match vm.chunk.code[vm.ip]? with
  | some b => some (b, { vm with ip := vm.ip + 1 })
  | none => none

/-- Read a 1-byte constant operand and resolve it in the pool (vm.rs
`Vm::read_constant`); the unchecked pool index panic is `none`. -/
def Vm.read_constant {V : Type} (vm : Vm V) : Option (V × Vm V) :=
  match vm.read_byte with
  | none => none
  | some (idx, vm1) =>
    match vm1.chunk.constants[idx]? with
    | none => none
    | some v => some (v, vm1)

/-- Read a 2-byte little-endian constant operand and resolve it in the pool
(vm.rs `Vm::read_constant_long`). -/
def Vm.read_constant_long {V : Type} (vm : Vm V) : Option (V × Vm V) :=
  match vm.read_byte with
  | none => none
  | some (b1, vm1) =>
    match vm1.read_byte with
    | none => none
    | some (b2, vm2) =>
      match vm2.chunk.constants[u16le b1 b2]? with
      | none => none
      | some v => some (v, vm2)

/-- Outcome of a single iteration of the dispatch loop in vm.rs `Vm::run`:
continue, halt with the value emitted by `Return`, or fail. -/
inductive StepOut (V : Type) where
  | next (vm : Vm V)
  | halt (v : V) (vm : Vm V)
  | fail (e : InterpretError)
  deriving Repr, DecidableEq

/-- One iteration of the fetch-decode-dispatch loop of vm.rs `Vm::run`.
`none` models the undefined behaviour of the unchecked pointer accesses:
fetching past the code buffer, pushing onto a full (256-slot) stack, and
popping or mutating slots of a too-shallow stack. The binary opcodes pop
exactly one operand `b` and overwrite the new top in place with `top <op> b`
(the `binary_op!` macro); `Divide` applies division unconditionally, with no
zero test. -/
def stepVm {V : Type} [Add V] [Sub V] [Mul V] [Div V] [Neg V] (vm : Vm V) :
    Option (StepOut V) :=
  match vm.read_byte with
  | none => none
  | some (byte, vm1) =>
    match OpCode.from_u8 byte with
    | some .Constant =>
      match vm1.read_constant with
      | none => none
      | some (v, vm2) =>
        if vm2.stack.length < 256 then
          some (.next { vm2 with stack := v :: vm2.stack })
        else none
    | some .ConstantLong =>
      match vm1.read_constant_long with
      | none => none
      | some (v, vm2) =>
        if vm2.stack.length < 256 then
          some (.next { vm2 with stack := v :: vm2.stack })
        else none
    | some .Negate =>
      match vm1.stack with
      | a :: rest => some (.next { vm1 with stack := (-a) :: rest })
      | [] => none
    | some .Add =>
      match vm1.stack with
      | b :: a :: rest => some (.next { vm1 with stack := (a + b) :: rest })
      | _ => none
    | some .Subtract =>
      match vm1.stack with
      | b :: a :: rest => some (.next { vm1 with stack := (a - b) :: rest })
      | _ => none
    | some .Multiply =>
      match vm1.stack with
      | b :: a :: rest => some (.next { vm1 with stack := (a * b) :: rest })
      | _ => none
    | some .Divide =>
      match vm1.stack with
      | b :: a :: rest => some (.next { vm1 with stack := (a / b) :: rest })
      | _ => none
    | some .Return =>
      match vm1.stack with
      | v :: rest => some (.halt v { vm1 with stack := rest })
      | [] => none
    | none => some (.fail (.Runtime ("Unsupported opcode: `" ++ toString byte ++ "`")))

/-- Fuel-indexed unfolding of the loop in vm.rs `Vm::run`: `some (.ok v)` is
a successful run emitting `v` through `Return`, `some (.error e)` a run that
surfaced `e`, and `none` a run that hit UB or did not terminate within the
fuel. -/
def run {V : Type} [Add V] [Sub V] [Mul V] [Div V] [Neg V] :
    Nat → Vm V → Option (Except InterpretError V)
  | 0, _ => none
  | fuel + 1, vm =>
    match stepVm vm with
    | none => none
    | some (.fail e) => some (.error e)
    | some (.halt v _) => some (.ok v)
    | some (.next vm1) => run fuel vm1

/-! ### Specification-side notions used to state the claims -/

/-- Preconditions under which the unchecked indexing of
`constant_instruction` / `constant_long_instruction` cannot panic: the
operand bytes are present in the code buffer and the decoded pool index is
in range. Operand-less opcodes index nothing. -/
def operandsOk {V : Type} (ch : Chunk V) (offset : Nat) : OpCode → Prop
  | .Constant => ∃ idx, ch.code[offset + 1]? = some idx ∧ idx < ch.constants.length
  | .ConstantLong => ∃ b1 b2, ch.code[offset + 1]? = some b1 ∧
      ch.code[offset + 2]? = some b2 ∧ u16le b1 b2 < ch.constants.length
  | _ => True

/-- The byte-offset-to-line mapping denoted by an RLE line map: each run
`⟨num, line⟩` contributes `num` consecutive entries `line`. -/
def rleDecode : List (Rle Nat) → List Nat
  | [] => []
  | r :: rest => List.replicate r.num r.value ++ rleDecode rest

/-- Total number of bytes covered by an RLE line map (the sum of the run
counts). -/
def sumNums (rs : List (Rle Nat)) : Nat := (rs.map Rle.num).sum

/-- Length of the longest prefix of a list all of whose elements equal `a`. -/
def headRunFrom (a : Nat) : List Nat → Nat
  | [] => 0
  | b :: rest => if b = a then headRunFrom a rest + 1 else 0

/-- Length of the maximal constant run at the end of a list (0 for the empty
list). -/
def trailRun (L : List Nat) : Nat :=
  match L.reverse with
  | [] => 0
  | a :: rest => headRunFrom a rest + 1

/-- The line map `rs` faithfully encodes the per-byte line list `L`, and its
last run is exactly the trailing constant run of `L` (the shape maintained
by `write_byte` while no run count wraps). -/
def LinesInv (rs : List (Rle Nat)) (L : List Nat) : Prop :=
  rleDecode rs = L ∧
  (match rs.getLast? with
   | none => L = []
   | some r => r.num = trailRun L ∧ L.getLast? = some r.value)

/-! ### Helper lemmas -/

/-- Elements of the right part of an appended list, addressed from the left
part's length. -/
theorem getElem?_append_add {α : Type} (l₁ l₂ : List α) (k : Nat) :
    (l₁ ++ l₂)[l₁.length + k]? = l₂[k]? := by
  induction l₁ with
  | nil => simp
  | cons a t ih => simpa [Nat.add_right_comm] using ih

/-- Special case of `getElem?_append_add` at the boundary index. -/
theorem getElem?_append_len {α : Type} (l₁ l₂ : List α) :
    (l₁ ++ l₂)[l₁.length]? = l₂[0]? := by
  simpa using getElem?_append_add l₁ l₂ 0

/-- `write_byte` appends exactly the written byte to the code buffer. -/
@[simp] theorem Chunk.write_byte_code {V : Type} (ch : Chunk V) (b l : Nat) :
    (ch.write_byte b l).code = ch.code ++ [b] := rfl

/-- `write_byte` leaves the constant pool untouched. -/
@[simp] theorem Chunk.write_byte_constants {V : Type} (ch : Chunk V) (b l : Nat) :
    (ch.write_byte b l).constants = ch.constants := rfl

/-- The total byte count of an empty line map is zero. -/
@[simp] theorem sumNums_nil : sumNums [] = 0 := rfl

/-- The total byte count of a line map, run by run. -/
@[simp] theorem sumNums_cons (r : Rle Nat) (rs : List (Rle Nat)) :
    sumNums (r :: rs) = r.num + sumNums rs := by
  simp [sumNums]

/-- Decoding distributes over appending line maps. -/
theorem rleDecode_append (xs ys : List (Rle Nat)) :
    rleDecode (xs ++ ys) = rleDecode xs ++ rleDecode ys := by
  induction xs with
  | nil => rfl
  | cons r t ih => simp [rleDecode, ih]

/-- The decoded line list has one entry per covered byte. -/
theorem rleDecode_length (rs : List (Rle Nat)) :
    (rleDecode rs).length = sumNums rs := by
  induction rs with
  | nil => rfl
  | cons r t ih => simp [rleDecode, ih]

/-- Appending an element equal to the last one extends the trailing run. -/
theorem trailRun_concat_same (L : List Nat) (l : Nat) (h : L.getLast? = some l) :
    trailRun (L ++ [l]) = trailRun L + 1 := by
  have hh : L.reverse.head? = some l := by rw [List.head?_reverse, h]
  cases hr : L.reverse with
  | nil => rw [hr] at hh; exact absurd hh (by simp)
  | cons a t =>
    rw [hr] at hh
    have ha : a = l := by simpa using hh
    subst ha
    have h1 : trailRun (L ++ [a]) = headRunFrom a (a :: t) + 1 := by
      unfold trailRun
      rw [List.reverse_append, hr]
      rfl
    have h2 : trailRun L = headRunFrom a t + 1 := by
      unfold trailRun
      rw [hr]
    rw [h1, h2]
    simp [headRunFrom]

/-- Appending an element different from the last one starts a trailing run of
length one. -/
theorem trailRun_concat_ne (L : List Nat) (l : Nat) (h : L.getLast? ≠ some l) :
    trailRun (L ++ [l]) = 1 := by
  cases hr : L.reverse with
  | nil =>
    have hnil : L = [] := by rw [← List.reverse_reverse L, hr]; rfl
    subst hnil
    rfl
  | cons a t =>
    have ha : a ≠ l := by
      intro he
      apply h
      rw [← List.head?_reverse, hr, he]
      rfl
    have h1 : trailRun (L ++ [l]) = headRunFrom l (a :: t) + 1 := by
      unfold trailRun
      rw [List.reverse_append, hr]
      rfl
    rw [h1]
    simp [headRunFrom, ha]

/-- The scanning loop of `get_line` computes exactly a lookup in the decoded
per-byte line list, relative to the accumulated start offset. -/
theorem getLineGo_decode (rs : List (Rle Nat)) :
    ∀ start k : Nat,
      getLineGo (start + k) rs start =
        (match (rleDecode rs)[k]? with
         | some l => .ok l
         | none => .error (.ParseLineForOffset (start + k))) := by
  induction rs with
  | nil => intro start k; simp [getLineGo, rleDecode]
  | cons r rest ih =>
    intro start k
    by_cases hk : k < r.num
    · have hcond : start ≤ start + k ∧ start + k < start + r.num := by omega
      rw [getLineGo, if_pos hcond]
      have hget : (rleDecode (r :: rest))[k]? = some r.value := by
        rw [show rleDecode (r :: rest) =
          List.replicate r.num r.value ++ rleDecode rest from rfl]
        rw [List.getElem?_append_left (by simpa using hk)]
        simp [hk]
      rw [hget]
    · have hcond : ¬ (start ≤ start + k ∧ start + k < start + r.num) := by omega
      rw [getLineGo, if_neg hcond]
      have hdec : (rleDecode (r :: rest))[k]? = (rleDecode rest)[k - r.num]? := by
        rw [show rleDecode (r :: rest) =
          List.replicate r.num r.value ++ rleDecode rest from rfl]
        rw [List.getElem?_append_right (by simpa using Nat.le_of_not_lt hk)]
        simp
      rw [hdec]
      have hsk : start + k = (start + r.num) + (k - r.num) := by omega
      rw [hsk, ih (start + r.num) (k - r.num)]

/-- `get_line` computes a lookup in the decoded per-byte line list. -/
theorem get_line_decode {V : Type} (ch : Chunk V) (k : Nat) :
    ch.get_line k =
      (match (rleDecode ch.lines)[k]? with
       | some l => .ok l
       | none => .error (.ParseLineForOffset k)) := by
  have h := getLineGo_decode ch.lines 0 k
  simpa [Chunk.get_line] using h

/-- The scanning loop succeeds exactly on offsets inside the covered
window. -/
theorem getLineGo_ok_iff (rs : List (Rle Nat)) :
    ∀ start offset : Nat,
      (∃ l, getLineGo offset rs start = .ok l) ↔
        (start ≤ offset ∧ offset < start + sumNums rs) := by
  induction rs with
  | nil =>
    intro start offset
    simp [getLineGo, sumNums]
  | cons r rest ih =>
    intro start offset
    by_cases hcond : start ≤ offset ∧ offset < start + r.num
    · rw [getLineGo, if_pos hcond]
      simp only [sumNums_cons]
      constructor
      · intro _; omega
      · intro _; exact ⟨r.value, rfl⟩
    · rw [getLineGo, if_neg hcond]
      rw [ih]
      simp only [sumNums_cons]
      omega

/-- `get_line` succeeds exactly on offsets below the covered byte count. -/
theorem get_line_ok_iff {V : Type} (ch : Chunk V) (offset : Nat) :
    (∃ l, ch.get_line offset = .ok l) ↔ offset < sumNums ch.lines := by
  have h := getLineGo_ok_iff ch.lines 0 offset
  simpa [Chunk.get_line] using h

/-- One `write_byte` call preserves the line-map invariant, provided the
trailing run of the extended line list still fits the `u8` run counter. -/
theorem linesInv_write_byte {V : Type} (ch : Chunk V) (L : List Nat) (b l : Nat)
    (hinv : LinesInv ch.lines L) (hbound : trailRun (L ++ [l]) ≤ 255) :
    LinesInv (ch.write_byte b l).lines (L ++ [l]) := by
  obtain ⟨hdec, hlast⟩ := hinv
  cases hr : ch.lines.getLast? with
  | none =>
    have hnil : ch.lines = [] := List.getLast?_eq_none_iff.mp hr
    have hL : L = [] := by rw [hr] at hlast; exact hlast
    have hlines : (ch.write_byte b l).lines = ch.lines ++ [Rle.new l] := by
      simp [Chunk.write_byte, hr]
    rw [hlines, hnil, hL]
    exact ⟨rfl, rfl, rfl⟩
  | some last =>
    rw [hr] at hlast
    obtain ⟨hnum, hlastL⟩ := hlast
    have hsplit : ch.lines.dropLast ++ [last] = ch.lines :=
      List.dropLast_append_getLast? last hr
    by_cases hv : last.value = l
    · have hlines : (ch.write_byte b l).lines =
          ch.lines.dropLast ++ [last.increment] := by
        simp [Chunk.write_byte, hr, hv]
      have htr : trailRun (L ++ [l]) = trailRun L + 1 :=
        trailRun_concat_same L l (by rw [hlastL, hv])
      have hfit : last.num + 1 ≤ 255 := by omega
      have hmod : (last.num + 1) % 256 = last.num + 1 :=
        Nat.mod_eq_of_lt (by omega)
      have hdec' : rleDecode ch.lines.dropLast ++
          List.replicate last.num last.value = L := by
        rw [← hdec, ← hsplit, rleDecode_append]
        simp [rleDecode]
      constructor
      · rw [hlines, rleDecode_append]
        have hinc : rleDecode [last.increment] =
            List.replicate last.num last.value ++ [last.value] := by
          simp [rleDecode, Rle.increment, hmod, List.replicate_succ']
        rw [hinc, ← List.append_assoc, hdec', hv]
      · rw [hlines, List.getLast?_concat]
        refine ⟨?_, ?_⟩
        · show (last.num + 1) % 256 = trailRun (L ++ [l])
          rw [hmod, htr, hnum]
        · show (L ++ [l]).getLast? = some last.value
          rw [List.getLast?_concat, hv]
    · have hlines : (ch.write_byte b l).lines = ch.lines ++ [Rle.new l] := by
        simp [Chunk.write_byte, hr, hv]
      constructor
      · rw [hlines, rleDecode_append, hdec]
        simp [rleDecode, Rle.new]
      · rw [hlines, List.getLast?_concat]
        refine ⟨?_, List.getLast?_concat L⟩
        show (1 : Nat) = trailRun (L ++ [l])
        rw [trailRun_concat_ne L l ?_]
        rw [hlastL]
        intro hc
        exact hv (by injection hc)

/-- Building a chunk from scratch with `write_byte` yields exactly the
appended bytes as code and a faithful line map, as long as no take of the
line sequence has a trailing run beyond 255. -/
theorem writeBytes_inv {V : Type} (entries : List (Nat × Nat))
    (hbound : ∀ n, n < entries.length + 1 →
      trailRun ((entries.map Prod.snd).take n) ≤ 255) :
    (writeBytes (Chunk.new : Chunk V) entries).code = entries.map Prod.fst ∧
    LinesInv (writeBytes (Chunk.new : Chunk V) entries).lines
      (entries.map Prod.snd) := by
  induction entries using List.reverseRecOn with
  | nil => exact ⟨rfl, rfl, rfl⟩
  | append_singleton es e ih =>
    have hb' : ∀ n, n < es.length + 1 → trailRun ((es.map Prod.snd).take n) ≤ 255 := by
      intro n hn
      have h1 := hbound n (by simp; omega)
      rw [List.map_append, List.take_append_of_le_length (by simp; omega)] at h1
      exact h1
    obtain ⟨hcode, hinv⟩ := ih hb'
    have hfull : trailRun (es.map Prod.snd ++ [e.2]) ≤ 255 := by
      have h2 := hbound (es.length + 1) (by simp)
      rw [List.map_append, List.take_of_length_le (by simp)] at h2
      simpa using h2
    constructor
    · simp only [writeBytes, List.foldl_append, List.foldl_cons, List.foldl_nil]
      simp only [writeBytes] at hcode
      rw [Chunk.write_byte_code, hcode]
      simp
    · simp only [writeBytes, List.foldl_append, List.foldl_cons, List.foldl_nil]
      simp only [writeBytes] at hinv
      simp only [List.map_append, List.map_cons, List.map_nil]
      exact linesInv_write_byte _ _ e.1 e.2 hinv hfull

/-- Writing `M + 1` bytes that all carry the same line produces a line map
with the single run `⟨M + 1, line⟩`, as long as the count fits the `u8`. -/
theorem writeBytes_replicate_same {V : Type} (b l : Nat) :
    ∀ M, M ≤ 254 →
      (writeBytes (Chunk.new : Chunk V) (List.replicate (M + 1) (b, l))).lines =
        [⟨M + 1, l⟩] := by
  intro M
  induction M with
  | zero => intro _; rfl
  | succ m ih =>
    intro h
    rw [List.replicate_succ' (m + 1) (b, l)]
    simp only [writeBytes, List.foldl_append, List.foldl_cons, List.foldl_nil]
    simp only [writeBytes] at ih
    have hlines := ih (by omega)
    revert hlines
    generalize (List.foldl (fun c p => Chunk.write_byte c p.1 p.2)
      (Chunk.new : Chunk V) (List.replicate (m + 1) (b, l))) = F
    intro hlines
    simp [Chunk.write_byte, hlines, Rle.increment,
      Nat.mod_eq_of_lt (by omega : m + 1 + 1 < 256)]

/-! ### Claim C10: the opcode byte encoding round-trips -/

/-- C10: for every `OpCode` `op`, `OpCode::from_u8(op as u8) = Some(op)`, and
`from_u8` returns `None` on every byte value 8 or above, so exactly the byte
values 0 through 7 are well-formed opcode bytes. -/
theorem claim_C10 :
    (∀ op : OpCode, OpCode.from_u8 op.as_u8 = some op) ∧
    (∀ b : Nat, 8 ≤ b → OpCode.from_u8 b = none) := by
  constructor
  · intro op; cases op <;> rfl
  · intro b hb
    obtain ⟨n, rfl⟩ : ∃ n, b = n + 8 := ⟨b - 8, by omega⟩
    rfl

/-- Concrete instance of `claim_C10`: the round-trip at `Divide` and the
rejection of byte 9. -/
theorem claim_C10_witness :
    OpCode.from_u8 OpCode.Divide.as_u8 = some OpCode.Divide ∧
    OpCode.from_u8 9 = none :=
  ⟨claim_C10.1 OpCode.Divide, claim_C10.2 9 (by decide)⟩

/-! ### Claim C9: `Vm::new` requires a non-empty code buffer -/

/-- C9: `Vm::new(chunk)` reads `chunk.code[0]`, so it is defined exactly on
chunks with a non-empty code buffer (on an empty one the index lookup has no
value); when defined, the instruction pointer starts at offset 0 with an
empty stack. -/
theorem claim_C9 {V : Type} (ch : Chunk V) :
    (Vm.new ch = none ↔ ch.code = []) ∧
    (∀ vm : Vm V, Vm.new ch = some vm → vm = ⟨ch, 0, []⟩) := by
  obtain ⟨code, lines, constants⟩ := ch
  cases code with
  | nil => simp [Vm.new]
  | cons hd tl =>
    constructor
    · simp [Vm.new]
    · intro vm h
      simp [Vm.new] at h
      exact h.symm

/-- Concrete instance of `claim_C9`: the empty chunk is rejected, and a VM
built over a one-byte chunk starts at ip 0 with an empty stack. -/
theorem claim_C9_witness :
    Vm.new (Chunk.new : Chunk Int) = none ∧
    (⟨⟨[7], [⟨1, 123⟩], []⟩, 0, []⟩ : Vm Int) = ⟨⟨[7], [⟨1, 123⟩], []⟩, 0, []⟩ :=
  ⟨(claim_C9 (Chunk.new : Chunk Int)).1.mpr rfl,
    (claim_C9 (⟨[7], [⟨1, 123⟩], []⟩ : Chunk Int)).2 ⟨⟨[7], [⟨1, 123⟩], []⟩, 0, []⟩ rfl⟩

/-! ### Claim C7: an unrecognized opcode byte stops the run at once -/

/-- C7: if the byte fetched at `ip` decodes to no known opcode (any value
8 or above), the dispatch loop fails immediately with a Runtime error naming
the byte, and `run` surfaces that error no matter how much fuel remains, so
no further instruction is executed. -/
theorem claim_C7 {V : Type} [Add V] [Sub V] [Mul V] [Div V] [Neg V]
    (vm : Vm V) (b : Nat)
    (hb : vm.chunk.code[vm.ip]? = some b) (h8 : 8 ≤ b) :
    stepVm vm = some (.fail (.Runtime ("Unsupported opcode: `" ++ toString b ++ "`"))) ∧
    (∀ fuel : Nat, run (fuel + 1) vm =
      some (.error (.Runtime ("Unsupported opcode: `" ++ toString b ++ "`")))) := by
  have hnone : OpCode.from_u8 b = none := by
    obtain ⟨n, rfl⟩ : ∃ n, b = n + 8 := ⟨b - 8, by omega⟩
    rfl
  have hstep : stepVm vm =
      some (.fail (.Runtime ("Unsupported opcode: `" ++ toString b ++ "`"))) := by
    simp [stepVm, Vm.read_byte, hb, hnone]
  exact ⟨hstep, fun fuel => by simp [run, hstep]⟩

/-- Concrete instance of `claim_C7`: a chunk whose single code byte is 9
makes the VM fail at once with the error naming byte 9. -/
theorem claim_C7_witness :
    run 5 (⟨⟨[9], [⟨1, 1⟩], []⟩, 0, []⟩ : Vm Int) =
      some (.error (.Runtime "Unsupported opcode: `9`")) :=
  (claim_C7 (⟨⟨[9], [⟨1, 1⟩], []⟩, 0, []⟩ : Vm Int) 9 rfl (by decide)).2 4

/-! ### Claim C6: the only reachable `write_constant` failure -/

/-- C6: `write_constant` returns an error exactly when the new constant's
index does not fit the chosen operand width; since the short path is only
taken below 255 pool entries, `TooManyConstantsShort` is unreachable, and
the only reachable failure is `TooManyConstantsLong`, exactly when the new
index (the old pool size) exceeds the 16-bit range. -/
theorem claim_C6 {V : Type} (ch : Chunk V) (v : V) (line : Nat) (e : ChunkError) :
    (ch.write_constant v line).2 = .error e ↔
      (e = ChunkError.TooManyConstantsLong ∧ 65535 < ch.constants.length) := by
  unfold Chunk.write_constant Chunk.write_constant_short Chunk.write_constant_long
    Chunk.add_constant
  by_cases h1 : ch.constants.length < 255
  · have h2 : ch.constants.length ≤ 255 := by omega
    have h3 : ¬ 65535 < ch.constants.length := by omega
    simp [h1, h2, h3]
  · by_cases h4 : ch.constants.length ≤ 65535
    · have h5 : ¬ 65535 < ch.constants.length := by omega
      simp [h1, h4, h5]
    · simp [h1, h4]
      constructor
      · intro h; exact ⟨h.symm, by omega⟩
      · intro h; exact h.1.symm

/-! ### Claim C1: `write_constant` encoding and decode round-trip -/

/-- C1: while the pool holds fewer than 255 entries, `write_constant` emits
a `Constant` opcode (byte 0) followed by a 1-byte pool index; from 255
entries on (and while the new index fits 16 bits, i.e. in the successful
case), it emits a `ConstantLong` opcode (byte 1) followed by a 2-byte
little-endian pool index; in both successful cases, decoding the operand as
`Vm::read_constant` / `Vm::read_constant_long` do resolves, via pool lookup,
to exactly the value that was written. -/
theorem claim_C1 {V : Type} (ch : Chunk V) (v : V) (line : Nat) :
    (ch.constants.length < 255 →
      (ch.write_constant v line).2 = .ok () ∧
      (ch.write_constant v line).1.code = ch.code ++ [0, ch.constants.length] ∧
      (∀ st : List V,
        Vm.read_constant ⟨(ch.write_constant v line).1, ch.code.length + 1, st⟩ =
          some (v, ⟨(ch.write_constant v line).1, ch.code.length + 2, st⟩))) ∧
    (255 ≤ ch.constants.length → ch.constants.length ≤ 65535 →
      (ch.write_constant v line).2 = .ok () ∧
      (ch.write_constant v line).1.code =
        ch.code ++ [1, ch.constants.length % 256, ch.constants.length / 256] ∧
      (∀ st : List V,
        Vm.read_constant_long ⟨(ch.write_constant v line).1, ch.code.length + 1, st⟩ =
          some (v, ⟨(ch.write_constant v line).1, ch.code.length + 3, st⟩))) := by
  constructor
  · intro h
    have h255 : ch.constants.length ≤ 255 := Nat.le_of_lt h
    have hwc : ch.write_constant v line =
        ((({ ch with constants := ch.constants ++ [v] } : Chunk V).write_byte
            0 line).write_byte ch.constants.length line, .ok ()) := by
      unfold Chunk.write_constant Chunk.write_constant_short Chunk.add_constant
      simp [h, h255, OpCode.as_u8]
    rw [hwc]
    refine ⟨rfl, by simp, fun st => ?_⟩
    unfold Vm.read_constant Vm.read_byte
    have hb : ((ch.code ++ [0]) ++ [ch.constants.length])[ch.code.length + 1]? =
        some ch.constants.length := by
      rw [List.append_assoc]
      rw [getElem?_append_add ch.code ([0] ++ [ch.constants.length]) 1]
      rfl
    simp only [Chunk.write_byte_code, Chunk.write_byte_constants]
    rw [hb]
    simp only []
    have hc : (ch.constants ++ [v])[ch.constants.length]? = some v := by
      rw [getElem?_append_len]
      rfl
    simp [hc]
  · intro h1 h2
    have hwc : ch.write_constant v line =
        (((({ ch with constants := ch.constants ++ [v] } : Chunk V).write_byte
            1 line).write_byte (ch.constants.length % 256) line).write_byte
            (ch.constants.length / 256) line, .ok ()) := by
      unfold Chunk.write_constant Chunk.write_constant_long Chunk.add_constant
      have hn : ¬ ch.constants.length < 255 := by omega
      simp [hn, h2, OpCode.as_u8]
    rw [hwc]
    have hcode : ((((ch.code ++ [1]) ++ [ch.constants.length % 256]) ++
        [ch.constants.length / 256]) : List Nat) =
        ch.code ++ [1, ch.constants.length % 256, ch.constants.length / 256] := by
      simp
    refine ⟨rfl, by simp, fun st => ?_⟩
    unfold Vm.read_constant_long Vm.read_byte
    simp only [Chunk.write_byte_code, Chunk.write_byte_constants]
    rw [hcode]
    have hb1 : (ch.code ++ [1, ch.constants.length % 256, ch.constants.length / 256])[ch.code.length + 1]? = some (ch.constants.length % 256) := by
      rw [getElem?_append_add]
      rfl
    have hb2 : (ch.code ++ [1, ch.constants.length % 256, ch.constants.length / 256])[ch.code.length + 2]? = some (ch.constants.length / 256) := by
      rw [getElem?_append_add]
      rfl
    rw [hb1]
    simp only []
    simp only [Chunk.write_byte_code]
    rw [hcode]
    rw [show ch.code.length + 1 + 1 = ch.code.length + 2 from rfl]
    rw [hb2]
    have hu : u16le (ch.constants.length % 256) (ch.constants.length / 256) =
        ch.constants.length := by
      unfold u16le
      omega
    have hc : (ch.constants ++ [v])[ch.constants.length]? = some v := by
      rw [getElem?_append_len]
      rfl
    simp [Chunk.write_byte_constants, hu, hc]

/-- Concrete instance of `claim_C1`: the short branch on an empty pool and
the long branch on a pool already holding 255 entries. -/
theorem claim_C1_witness :
    ((Chunk.new : Chunk Int).write_constant 7 1).1.code = [] ++ [0, 0] ∧
    Vm.read_constant
        ⟨((Chunk.new : Chunk Int).write_constant 7 1).1, 1, []⟩ =
      some (7, ⟨((Chunk.new : Chunk Int).write_constant 7 1).1, 2, []⟩) ∧
    ((⟨[], [], List.replicate 255 0⟩ : Chunk Int).write_constant 9 1).2 = .ok () ∧
    ((⟨[], [], List.replicate 255 0⟩ : Chunk Int).write_constant 9 1).1.code =
      [] ++ [1, 255, 0] ∧
    Vm.read_constant_long
        ⟨((⟨[], [], List.replicate 255 0⟩ : Chunk Int).write_constant 9 1).1, 1, []⟩ =
      some (9, ⟨((⟨[], [], List.replicate 255 0⟩ : Chunk Int).write_constant 9 1).1, 3, []⟩) := by
  have hshort := (claim_C1 (Chunk.new : Chunk Int) 7 1).1 (by decide)
  have hlong := (claim_C1 (⟨[], [], List.replicate 255 0⟩ : Chunk Int) 9 1).2
    (by simp) (by simp)
  refine ⟨hshort.2.1, hshort.2.2 [], hlong.1, ?_, ?_⟩
  · have := hlong.2.1
    simpa using this
  · have := hlong.2.2 []
    simpa using this

/-! ### Claim C2: binary opcodes pop one operand and update the top in place -/

/-- C2: with `b` on top of the stack and `a` beneath it, dispatching `Add`,
`Subtract`, `Multiply` or `Divide` pops exactly the one operand `b` and
replaces the new top with `a <op> b`: the stack depth shrinks by one and all
slots below the new top are untouched. The `Divide` case applies division
unconditionally — there is no zero test and no error outcome (the source's
`f64` division yields infinity/NaN; the value arithmetic is parametric
here). -/
theorem claim_C2 {V : Type} [Add V] [Sub V] [Mul V] [Div V] [Neg V]
    (vm : Vm V) (byte : Nat) (a b : V) (below : List V)
    (hb : vm.chunk.code[vm.ip]? = some byte)
    (hst : vm.stack = b :: a :: below) :
    (byte = 2 → stepVm vm = some (.next ⟨vm.chunk, vm.ip + 1, (a + b) :: below⟩)) ∧
    (byte = 3 → stepVm vm = some (.next ⟨vm.chunk, vm.ip + 1, (a - b) :: below⟩)) ∧
    (byte = 4 → stepVm vm = some (.next ⟨vm.chunk, vm.ip + 1, (a * b) :: below⟩)) ∧
    (byte = 5 → stepVm vm = some (.next ⟨vm.chunk, vm.ip + 1, (a / b) :: below⟩)) := by
  refine ⟨?_, ?_, ?_, ?_⟩ <;> rintro rfl <;>
    simp [stepVm, Vm.read_byte, hb, OpCode.from_u8, hst]

/-- Concrete instance of `claim_C2`: a `Divide` whose divisor is the integer
0 still takes a step (no error), leaving the single slot `7 / 0`. -/
theorem claim_C2_witness :
    stepVm (⟨⟨[5], [⟨1, 1⟩], []⟩, 0, [0, 7]⟩ : Vm Int) =
      some (.next ⟨⟨[5], [⟨1, 1⟩], []⟩, 1, [(7 : Int) / 0]⟩) :=
  (claim_C2 (⟨⟨[5], [⟨1, 1⟩], []⟩, 0, [0, 7]⟩ : Vm Int) 5 7 0 [] rfl rfl).2.2.2 rfl

/-! ### Claim C3: `get_line` returns the line passed at append time

The claim as stated fails: the run counter `Rle.num` is a `u8`, so 256
consecutive `write_byte` calls with the same line wrap it to 0 and the
offsets covered by that run are no longer resolvable. It holds whenever no
trailing run of the appended line sequence exceeds 255. -/

/-- Counterexample to C3 as stated: after 256 `write_byte` calls that all
pass line 7, the byte at offset 0 was appended with line 7, yet `get_line 0`
returns an error (the run counter wrapped to 0) instead of `Ok(7)`. -/
theorem claim_C3_cex :
    (List.replicate 256 ((0 : Nat), (7 : Nat)))[0]? = some (0, 7) ∧
    (writeBytes (Chunk.new : Chunk Int) (List.replicate 256 (0, 7))).get_line 0 =
      .error (.ParseLineForOffset 0) := by
  exact ⟨rfl, rfl⟩

/-- C3 (amended): for every sequence of `write_byte(b, line)` calls in which
no run of equal consecutive line values exceeds 255 (no `u8` run-counter
wrap), `get_line(offset)` returns `Ok` of exactly the line passed when the
byte at `offset` was appended, for every valid offset. -/
theorem claim_C3 {V : Type} (entries : List (Nat × Nat)) (offset b l : Nat)
    (hbound : ∀ n, n < entries.length + 1 →
      trailRun ((entries.map Prod.snd).take n) ≤ 255)
    (he : entries[offset]? = some (b, l)) :
    (writeBytes (Chunk.new : Chunk V) entries).get_line offset = .ok l := by
  obtain ⟨-, hdec, -⟩ := writeBytes_inv (V := V) entries hbound
  rw [get_line_decode, hdec]
  simp [he]

/-- Concrete instance of `claim_C3`: three bytes on lines 7, 7, 9; the byte
at offset 1 resolves to line 7. -/
theorem claim_C3_witness :
    (writeBytes (Chunk.new : Chunk Int) [(0, 7), (1, 7), (2, 9)]).get_line 1 =
      .ok 7 :=
  claim_C3 [(0, 7), (1, 7), (2, 9)] 1 1 7 (by decide) rfl

/-! ### Claim C5: shape of the run-length line map

The same `u8` wrap refutes the sum clause as stated; the collapse and
new-run clauses, and the sum clause under the 255-per-run bound, hold. -/

/-- Counterexample to C5 as stated: after 256 same-line `write_byte` calls
the code buffer holds 256 bytes but the run counts sum to 0 (the single
run's `u8` counter wrapped), so `sum of run counts = total bytes` fails. -/
theorem claim_C5_cex :
    sumNums (writeBytes (Chunk.new : Chunk Int) (List.replicate 256 (0, 7))).lines = 0 ∧
    (writeBytes (Chunk.new : Chunk Int) (List.replicate 256 (0, 7))).code.length = 256 := by
  exact ⟨by decide, by decide⟩

/-- C5 (amended): (a) under the 255-per-run bound, the run counts of the
line map sum to the total number of appended bytes; (b) appending `N ≤ 255`
consecutive bytes with the same line produces the single run `⟨N, line⟩`
(the last run's count is incremented rather than a new run started); (c) a
`write_byte` whose line differs from the last run's value appends a fresh
run of count 1. -/
theorem claim_C5 {V : Type} :
    (∀ entries : List (Nat × Nat),
      (∀ n, n < entries.length + 1 →
        trailRun ((entries.map Prod.snd).take n) ≤ 255) →
      sumNums (writeBytes (Chunk.new : Chunk V) entries).lines =
        (writeBytes (Chunk.new : Chunk V) entries).code.length) ∧
    (∀ N b l : Nat, 1 ≤ N → N ≤ 255 →
      (writeBytes (Chunk.new : Chunk V) (List.replicate N (b, l))).lines =
        [⟨N, l⟩]) ∧
    (∀ (ch : Chunk V) (b l : Nat) (r : Rle Nat),
      ch.lines.getLast? = some r → r.value ≠ l →
      (ch.write_byte b l).lines = ch.lines ++ [Rle.new l]) := by
  refine ⟨?_, ?_, ?_⟩
  · intro entries hbound
    obtain ⟨hcode, hdec, -⟩ := writeBytes_inv (V := V) entries hbound
    rw [← rleDecode_length, hdec, hcode]
    simp
  · intro N b l h1 h255
    obtain ⟨M, rfl⟩ : ∃ M, N = M + 1 := ⟨N - 1, by omega⟩
    exact writeBytes_replicate_same b l M (by omega)
  · intro ch b l r hr hv
    simp [Chunk.write_byte, hr, hv]

/-- Concrete instance of `claim_C5`: the sum invariant on a two-line
sequence, the collapse of three same-line bytes into `⟨3, 4⟩`, and a fresh
run when the line changes. -/
theorem claim_C5_witness :
    sumNums (writeBytes (Chunk.new : Chunk Int) [(0, 7), (1, 8)]).lines =
      (writeBytes (Chunk.new : Chunk Int) [(0, 7), (1, 8)]).code.length ∧
    (writeBytes (Chunk.new : Chunk Int) (List.replicate 3 (0, 4))).lines =
      [⟨3, 4⟩] ∧
    ((⟨[0], [⟨1, 1⟩], []⟩ : Chunk Int).write_byte 0 2).lines =
      [⟨1, 1⟩] ++ [Rle.new 2] :=
  ⟨(claim_C5 (V := Int)).1 [(0, 7), (1, 8)] (by decide),
    (claim_C5 (V := Int)).2.1 3 0 4 (by decide) (by decide),
    (claim_C5 (V := Int)).2.2 ⟨[0], [⟨1, 1⟩], []⟩ 0 2 ⟨1, 1⟩ rfl (by decide)⟩

/-! ### Claim C8: `disassemble_instruction` returns `offset + 1 + width`

The claim as stated fails: `constant_instruction` and
`constant_long_instruction` index the operand bytes and the constant pool
without checking, so a recognized opcode whose operand bytes are missing
panics instead of returning `Ok`. It holds once the operands are present and
the pool index is in range. -/

/-- Counterexample to C8 as stated: a chunk holding the single byte 0 (a
recognized `Constant` opcode) whose offset 0 is covered by the line map, on
which `disassemble_instruction 0` panics reading the missing operand byte
(no value in the embedding) instead of returning `Ok(2)`. -/
theorem claim_C8_cex :
    OpCode.from_u8 0 = some OpCode.Constant ∧
    (∃ l, ((Chunk.new : Chunk Int).write_byte 0 123).get_line 0 = .ok l) ∧
    ((Chunk.new : Chunk Int).write_byte 0 123).disassemble_instruction 0 = none :=
  ⟨rfl, ⟨123, rfl⟩, rfl⟩

/-- C8 (amended): for every offset holding a recognized opcode byte, covered
by the line map, and whose declared operand bytes are present (with the
decoded pool index in range for the constant-loading opcodes),
`disassemble_instruction(offset)` returns `Ok(offset + 1 + w)` where `w` is
the opcode's operand width: 0 for `Add`, `Subtract`, `Multiply`, `Divide`,
`Negate`, `Return`; 1 for `Constant`; 2 for `ConstantLong`. -/
theorem claim_C8 {V : Type} (ch : Chunk V) (offset byte : Nat) (op : OpCode)
    (hb : ch.code[offset]? = some byte)
    (hop : OpCode.from_u8 byte = some op)
    (hline : ∃ l, ch.get_line offset = .ok l)
    (hoper : operandsOk ch offset op) :
    ch.disassemble_instruction offset = some (.ok (offset + 1 + opWidth op)) := by
  obtain ⟨l, hl⟩ := hline
  obtain ⟨l2, hl2⟩ : ∃ l2, (if 0 < offset then ch.get_line (offset - 1)
      else .ok l) = .ok l2 := by
    by_cases hpos : 0 < offset
    · rw [if_pos hpos]
      have hcov : offset < sumNums ch.lines := (get_line_ok_iff ch offset).mp ⟨l, hl⟩
      exact (get_line_ok_iff ch (offset - 1)).mpr (by omega)
    · rw [if_neg hpos]
      exact ⟨l, rfl⟩
  unfold Chunk.disassemble_instruction
  simp only [hl]
  simp only [hl2]
  simp only [hb]
  simp only [hop]
  cases op <;> try rfl
  · obtain ⟨idx, hidx, hlt⟩ := hoper
    have hw := List.getElem?_eq_getElem hlt
    simp only [hidx, hw]
    rfl
  · obtain ⟨b1, b2, h1, h2, hlt⟩ := hoper
    have hw := List.getElem?_eq_getElem hlt
    simp only [h1, h2, hw]
    rfl

/-- Concrete instance of `claim_C8`: a well-formed `Constant` instruction
with its operand byte and pool entry present disassembles to next offset
2. -/
theorem claim_C8_witness :
    (⟨[0, 0], [⟨2, 1⟩], [5]⟩ : Chunk Int).disassemble_instruction 0 =
      some (.ok 2) :=
  claim_C8 ⟨[0, 0], [⟨2, 1⟩], [5]⟩ 0 0 .Constant rfl rfl ⟨1, rfl⟩
    ⟨0, rfl, by decide⟩

/-! ### Claim C4: what a failing `write_constant` leaves behind

The claim as stated fails: `write_constant_long` writes the `ConstantLong`
opcode byte before the `try_into::<u16>` bound check, so the (only
reachable) failure leaves exactly that opcode byte dangling with no operand
bytes — a partial instruction at the end of the buffer. -/

/-- Shape of the failing `write_constant` on a fresh chunk whose pool
already exceeds the 16-bit index range. -/
theorem writeConstant_fail_eq {V : Type} (cs : List V) (v : V) (line : Nat)
    (h : 65535 < cs.length) :
    ((⟨[], [], cs⟩ : Chunk V).write_constant v line) =
      (⟨[1], [⟨1, line⟩], cs ++ [v]⟩, .error .TooManyConstantsLong) := by
  have h1 : ¬ (cs.length < 255) := by omega
  have h2 : ¬ (cs.length ≤ 65535) := by omega
  unfold Chunk.write_constant Chunk.write_constant_long Chunk.write_constant_short
    Chunk.add_constant
  simp [h1, h2, Chunk.write_byte, OpCode.as_u8, Rle.new]

/-- Evaluation of the failing `write_constant` on a pool already holding
65536 constants. -/
theorem writeConstant_hugePool :
    ((⟨[], [], List.replicate 65536 (0 : Int)⟩ : Chunk Int).write_constant 3 1) =
      (⟨[1], [⟨1, 1⟩], List.replicate 65536 (0 : Int) ++ [3]⟩,
        .error .TooManyConstantsLong) :=
  writeConstant_fail_eq (List.replicate 65536 (0 : Int)) 3 1
    (by rw [List.length_replicate]; omega)

/-- Counterexample to C4 as stated: on a chunk whose pool holds 65536
constants, `write_constant` fails with `TooManyConstantsLong` but leaves the
code buffer as `[1]` — a lone `ConstantLong` opcode byte lacking its two
declared operand bytes — and disassembling that trailing instruction panics
(no value) rather than succeeding. -/
theorem claim_C4_cex :
    ((⟨[], [], List.replicate 65536 (0 : Int)⟩ : Chunk Int).write_constant 3 1).2 =
      .error .TooManyConstantsLong ∧
    ((⟨[], [], List.replicate 65536 (0 : Int)⟩ : Chunk Int).write_constant 3 1).1.code =
      [1] ∧
    ((⟨[], [], List.replicate 65536 (0 : Int)⟩ : Chunk Int).write_constant
        3 1).1.disassemble_instruction 0 = none := by
  rw [writeConstant_hugePool]
  exact ⟨rfl, rfl, rfl⟩

/-- C4 (amended): whenever `write_constant(value, line)` returns an error,
every byte appended before the failing call is preserved unchanged, and the
failing call appends exactly one `ConstantLong` opcode byte (with no operand
bytes — a trailing partial instruction) to the code buffer and the value to
the pool; such a failure only happens with more than 65535 pooled
constants. -/
theorem claim_C4 {V : Type} (ch : Chunk V) (v : V) (line : Nat) (e : ChunkError)
    (herr : (ch.write_constant v line).2 = .error e) :
    (ch.write_constant v line).1.code = ch.code ++ [OpCode.ConstantLong.as_u8] ∧
    (ch.write_constant v line).1.constants = ch.constants ++ [v] ∧
    65535 < ch.constants.length := by
  by_cases h1 : ch.constants.length < 255
  · exfalso
    have h2 : ch.constants.length ≤ 255 := by omega
    unfold Chunk.write_constant Chunk.write_constant_short Chunk.add_constant at herr
    simp [h1, h2] at herr
  · by_cases h2 : ch.constants.length ≤ 65535
    · exfalso
      unfold Chunk.write_constant Chunk.write_constant_long Chunk.add_constant at herr
      simp [h1, h2] at herr
    · refine ⟨?_, ?_, by omega⟩
      · unfold Chunk.write_constant Chunk.write_constant_long Chunk.add_constant
        simp [h1, h2, OpCode.as_u8]
      · unfold Chunk.write_constant Chunk.write_constant_long Chunk.add_constant
        simp [h1, h2]

/-- Concrete instance of `claim_C4`: the failing call on the 65536-constant
pool preserves the (empty) earlier code, appends the lone opcode byte and
pools the value. -/
theorem claim_C4_witness :
    ((⟨[], [], List.replicate 65536 (0 : Int)⟩ : Chunk Int).write_constant 3 1).1.code =
      [] ++ [OpCode.ConstantLong.as_u8] ∧
    ((⟨[], [], List.replicate 65536 (0 : Int)⟩ : Chunk Int).write_constant
        3 1).1.constants = List.replicate 65536 (0 : Int) ++ [3] ∧
    65535 < (List.replicate 65536 (0 : Int)).length :=
  claim_C4 ⟨[], [], List.replicate 65536 (0 : Int)⟩ 3 1 .TooManyConstantsLong
    (by rw [writeConstant_hugePool])

end RloxVm
